import Mathlib

/-! # Verification of the SDL calculator

Shallow embedding of the calculator in this repository.  The engine proper
lives in the unnamed SDL source file: `format_double`, `calculate_result`,
`handle_button_press` operating on the globals `input_str`, `storedValue`,
`currentOp`, `resetInput`.  The add-on header `enhancer.h` contributes the
stand-alone helpers `CalculatorHistory::addEntry`, `backspaceInput` and
`safeCalculate`, which are embedded separately.

Modelling conventions:
* A C++ `double` is modelled by `Dbl`: an exact rational together with the
  IEEE-754 special values `inf`, `-inf` and `nan`.  Arithmetic on finite
  values is exact (binary rounding and overflow are not modelled); the
  special values follow the IEEE rules.  The sign of zero is not modelled.
* `std::stod` is modelled by `stod : String → Option Dbl`, where `none`
  models the `std::invalid_argument` exception raised when no initial part
  of the string parses as a number.  A C++ path that lets this exception
  escape is modelled by an `Option`-valued handler returning `none`.
  (`std::out_of_range` and leading whitespace are not modelled; the engine
  never produces such buffers on the paths studied here.  Only lower-case
  `inf`/`nan` spellings are accepted, which is what the engine emits.)
* `char currentOp` uses `0` for "no operator"; it is modelled `Option Char`.
* `std::round` (round half away from zero) is `stdRound`; the tie-breaking
  rounding used by `printf`-style significant-digit cutting is modelled as
  round half to even (`roundHalfEven`).
-/

/- Batteries marks the `Rat` field operations `irreducible`, which prevents
`decide` from evaluating rational arithmetic; restore transparency locally so
concrete engine runs can be checked by the kernel. -/
attribute [local semireducible] Rat.add Rat.mul Rat.inv Rat.sub Rat.ofScientific

/-- Model of a C++ `double`: exact rationals plus the IEEE special values. -/
inductive Dbl where
  | finite (q : ℚ)
  | inf
  | neginf
  | nan
deriving DecidableEq

/-- IEEE addition on `Dbl` (exact on finite values). -/
def Dbl.add : Dbl → Dbl → Dbl
  | nan, _ => nan
  | _, nan => nan
  | finite a, finite b => finite (a + b)
  | finite _, inf => inf
  | finite _, neginf => neginf
  | inf, finite _ => inf
  | neginf, finite _ => neginf
  | inf, inf => inf
  | neginf, neginf => neginf
  | inf, neginf => nan
  | neginf, inf => nan

/-- IEEE subtraction on `Dbl` (exact on finite values). -/
def Dbl.sub : Dbl → Dbl → Dbl
  | nan, _ => nan
  | _, nan => nan
  | finite a, finite b => finite (a - b)
  | finite _, inf => neginf
  | finite _, neginf => inf
  | inf, finite _ => inf
  | neginf, finite _ => neginf
  | inf, inf => nan
  | neginf, neginf => nan
  | inf, neginf => inf
  | neginf, inf => neginf

/-- IEEE multiplication on `Dbl` (exact on finite values). -/
def Dbl.mul : Dbl → Dbl → Dbl
  | nan, _ => nan
  | _, nan => nan
  | finite a, finite b => finite (a * b)
  | finite a, inf => if a = 0 then nan else if 0 < a then inf else neginf
  | finite a, neginf => if a = 0 then nan else if 0 < a then neginf else inf
  | inf, finite b => if b = 0 then nan else if 0 < b then inf else neginf
  | neginf, finite b => if b = 0 then nan else if 0 < b then neginf else inf
  | inf, inf => inf
  | inf, neginf => neginf
  | neginf, inf => neginf
  | neginf, neginf => inf

/-- IEEE division on `Dbl` (exact on finite values; the sign of zero is not
modelled, so a zero divisor is treated as `+0`). -/
def Dbl.div : Dbl → Dbl → Dbl
  | nan, _ => nan
  | _, nan => nan
  | finite a, finite b =>
      if b = 0 then (if a = 0 then nan else if 0 < a then inf else neginf)
      else finite (a / b)
  | finite _, inf => finite 0
  | finite _, neginf => finite 0
  | inf, finite b => if 0 ≤ b then inf else neginf
  | neginf, finite b => if 0 ≤ b then neginf else inf
  | inf, inf => nan
  | inf, neginf => nan
  | neginf, inf => nan
  | neginf, neginf => nan

/-- The C++ comparison `b != 0` (true on `nan` and on the infinities). -/
def dblNe0 : Dbl → Bool
  | .finite q => decide (q ≠ 0)
  | _ => true

/-- The C++ comparison `b == 0` (false on `nan` and on the infinities). -/
def dblEq0 : Dbl → Bool
  | .finite q => decide (q = 0)
  | _ => false

/-- `std::isnan(x) || std::isinf(x)`. -/
def dblIsNanOrInf : Dbl → Bool
  | .finite _ => false
  | _ => true

/-- The decimal digit characters. -/
def digitChar (d : ℕ) : Char :=
  match d with
  | 0 => '0'
  | 1 => '1'
  | 2 => '2'
  | 3 => '3'
  | 4 => '4'
  | 5 => '5'
  | 6 => '6'
  | 7 => '7'
  | 8 => '8'
  | _ => '9'

/-- Little-endian decimal digits, fuel-based so the kernel can evaluate it. -/
def natDigitsAux : ℕ → ℕ → List ℕ
  | 0, _ => []
  | fuel + 1, n => if n = 0 then [] else n % 10 :: natDigitsAux fuel (n / 10)

/-- Little-endian decimal digits of `n` (empty for `n = 0`). -/
def natDigits (n : ℕ) : List ℕ := natDigitsAux (n + 1) n

/-- Big-endian decimal digit characters of `n` (empty for `n = 0`). -/
def digitChars (n : ℕ) : List Char := (natDigits n).reverse.map digitChar

/-- Decimal rendering of a natural number. -/
def natStr (n : ℕ) : String := if n = 0 then "0" else String.mk (digitChars n)

/-- Decimal rendering of an integer. -/
def intStr (n : ℤ) : String := (if n < 0 then "-" else "") ++ natStr n.natAbs

/-- `std::round`: round half away from zero. -/
def stdRound (q : ℚ) : ℤ := if q < 0 then -⌊-q + 1/2⌋ else ⌊q + 1/2⌋

/-- Round to nearest, ties to even. -/
def roundHalfEven (q : ℚ) : ℤ :=
  let f := ⌊q⌋
  let r := q - f
  if r < 1/2 then f
  else if 1/2 < r then f + 1
  else if f % 2 = 0 then f else f + 1

/-- Number of decimal digits of `n` (`0` for `n = 0`). -/
def numDigits (n : ℕ) : ℕ := (natDigits n).length

/-- Decimal exponent of a positive rational: the unique `z` with
`10 ^ z ≤ q < 10 ^ (z + 1)`. -/
def g10exp0 (q : ℚ) : ℤ :=
  let z : ℤ := (numDigits q.num.natAbs : ℤ) - (numDigits q.den : ℤ)
  if q < 10 ^ z then z - 1 else z

/-- Mantissa of a positive rational cut to 10 significant decimal digits:
a value in `[10^9, 10^10]` (the top end when rounding overflows). -/
def g10mant0 (q : ℚ) : ℤ := roundHalfEven (q * 10 ^ ((9 : ℤ) - g10exp0 q))

/-- 10-digit mantissa after renormalising the rounding overflow. -/
def g10mant (q : ℚ) : ℤ := if g10mant0 q = 10 ^ 10 then 10 ^ 9 else g10mant0 q

/-- Decimal exponent after renormalising the rounding overflow. -/
def g10exp (q : ℚ) : ℤ := if g10mant0 q = 10 ^ 10 then g10exp0 q + 1 else g10exp0 q

/-- Remove the trailing `'0'` characters. -/
def dropTrailingZeros (l : List Char) : List Char :=
  (l.reverse.dropWhile (fun c => c = '0')).reverse

/-- Exponent digits, at least two of them, as C++ prints them. -/
def pad2 (n : ℕ) : String := if n < 10 then "0" ++ natStr n else natStr n

/-- The exponent suffix of C++ scientific output, e.g. `e-07`, `e+10`. -/
def sciExpStr (x : ℤ) : String := (if x < 0 then "e-" else "e+") ++ pad2 x.natAbs

/-- Fixed-point rendering of a 10-digit mantissa `D` with decimal exponent
`x`, trailing fractional zeros trimmed. -/
def fixedRender (D : List Char) (x : ℤ) : String :=
  if 0 ≤ x then
    String.mk (D.take (x.toNat + 1)) ++
      (if dropTrailingZeros (D.drop (x.toNat + 1)) = [] then ""
       else "." ++ String.mk (dropTrailingZeros (D.drop (x.toNat + 1))))
  else
    String.mk ('0' :: '.' :: (List.replicate (x.natAbs - 1) '0' ++ dropTrailingZeros D))

/-- Scientific rendering of a 10-digit mantissa `D` with decimal exponent
`x`, trailing mantissa zeros trimmed. -/
def sciRender (D : List Char) (x : ℤ) : String :=
  String.mk (D.take 1) ++
    (if dropTrailingZeros D.tail = [] then ""
     else "." ++ String.mk (dropTrailingZeros D.tail)) ++ sciExpStr x

/-- C++ `ostream` default floating rendering at precision 10 (`%.10g`): cut
to 10 significant digits, trim trailing zeros, use fixed-point style when the
decimal exponent `x` satisfies `-4 ≤ x < 10` and scientific style otherwise. -/
def defaultfloat10 (q : ℚ) : String :=
  if q = 0 then "0"
  else
    (if q < 0 then "-" else "") ++
      (if -4 ≤ g10exp |q| ∧ g10exp |q| < 10 then
         fixedRender (digitChars (g10mant |q|).toNat) (g10exp |q|)
       else sciRender (digitChars (g10mant |q|).toNat) (g10exp |q|))

/-- `format_double` from the engine source: values within `1e-9` of an
integer print via `std::fixed` at precision 0 (note the `-0` C++ emits for
tiny negative values), everything else via the default notation at precision
10.  Within the first branch `std::round` never meets a tie, so `stdRound`
agrees with it there. -/
def format_double (v : Dbl) : String :=
  match v with
  | .finite q =>
      if |q - (stdRound q : ℚ)| < 1 / 10 ^ 9 then
        if stdRound q = 0 ∧ q < 0 then "-0" else intStr (stdRound q)
      else defaultfloat10 q
  | .inf => "inf"
  | .neginf => "-inf"
  | .nan => "nan"

/-- Numeric value of a list of decimal digit characters. -/
def natFromDigits (l : List Char) : ℕ :=
  l.foldl (fun a c => 10 * a + (c.toNat - 48)) 0

/-- Exponent part of a `strtod` literal; an `e` not followed by digits is
ignored (not consumed), giving exponent `0`. -/
def expVal (t : List Char) : ℤ :=
  match t with
  | '-' :: u =>
      if (u.takeWhile Char.isDigit).length = 0 then 0
      else -(natFromDigits (u.takeWhile Char.isDigit) : ℤ)
  | '+' :: u =>
      if (u.takeWhile Char.isDigit).length = 0 then 0
      else (natFromDigits (u.takeWhile Char.isDigit) : ℤ)
  | u =>
      if (u.takeWhile Char.isDigit).length = 0 then 0
      else (natFromDigits (u.takeWhile Char.isDigit) : ℤ)

/-- `std::stod` on a character list: optional sign, then `inf`/`nan` or
digits with an optional fractional part and exponent; `none` when no initial
portion parses (the `std::invalid_argument` case). -/
def stodCore (l : List Char) : Option Dbl :=
  let neg : Bool :=
    match l with
    | '-' :: _ => true
    | _ => false
  let l1 : List Char :=
    match l with
    | '-' :: t => t
    | '+' :: t => t
    | t => t
  if l1.take 3 = ['i', 'n', 'f'] then some (if neg then Dbl.neginf else Dbl.inf)
  else if l1.take 3 = ['n', 'a', 'n'] then some Dbl.nan
  else
    let ds1 := l1.takeWhile Char.isDigit
    let r1 := l1.dropWhile Char.isDigit
    let ds2 : List Char :=
      match r1 with
      | '.' :: t => t.takeWhile Char.isDigit
      | _ => []
    let r2 : List Char :=
      match r1 with
      | '.' :: t => t.dropWhile Char.isDigit
      | t => t
    if ds1.length + ds2.length = 0 then none
    else
      let mant : ℚ := (natFromDigits ds1 : ℚ) + (natFromDigits ds2 : ℚ) / 10 ^ ds2.length
      let ex : ℤ :=
        match r2 with
        | 'e' :: t => expVal t
        | 'E' :: t => expVal t
        | _ => 0
      some (Dbl.finite ((if neg then -mant else mant) * 10 ^ ex))

/-- `std::stod` on a string; `none` models `std::invalid_argument`. -/
def stod (s : String) : Option Dbl := stodCore s.toList

/-- `try { stod(s) } catch (...) { 0.0 }`: the guarded parses of the engine. -/
def stodOr0 (s : String) : Dbl := (stod s).getD (Dbl.finite 0)

/-- The engine state: the globals `input_str`, `storedValue`, `currentOp`
(`0` = none) and `resetInput` of the SDL source. -/
structure EngineState where
  input_str : String
  storedValue : Dbl
  currentOp : Option Char
  resetInput : Bool
deriving DecidableEq

/-- A calculator button as laid out by `layout_buttons`: its label, its
stringly-typed kind, and `value = label[0]`. -/
structure Button where
  label : String
  type : String
  value : Char
deriving DecidableEq

/-- The initial engine state of the SDL source. -/
def initState : EngineState :=
  { input_str := "0", storedValue := Dbl.finite 0, currentOp := none, resetInput := true }

/-- `calculate_result` from the engine source.  `error` and the `switch` are
modelled by the pair `step = (result, error)`; an operator other than the
four arithmetic ones leaves `result` at its initialiser `0`. -/
def calculate_result (st : EngineState) : EngineState :=
  match st.currentOp with
  | none => st
  | some op =>
    let a := st.storedValue
    let b := stodOr0 st.input_str
    let step : Dbl × Bool :=
      if op = '+' then (Dbl.add a b, false)
      else if op = '-' then (Dbl.sub a b, false)
      else if op = '*' then (Dbl.mul a b, false)
      else if op = '/' then
        if dblNe0 b then (Dbl.div a b, false) else (Dbl.finite 0, true)
      else (Dbl.finite 0, false)
    if step.2 then
      { input_str := "Error", storedValue := Dbl.finite 0,
        currentOp := none, resetInput := true }
    else
      { input_str := format_double step.1, storedValue := step.1,
        currentOp := none, resetInput := true }

/-- `handle_button_press` from the engine source.  The result is `none`
exactly when the C++ would die with an uncaught exception: the chained
operator path runs `storedValue = std::stod(input_str)` without a
`try`/`catch`, unlike the sibling branch below it. -/
def handle_button_press (btn : Button) (st : EngineState) : Option EngineState :=
  if btn.type = "number" then
    if st.resetInput then
      some { st with input_str := (if btn.value = '.' then "0." else btn.label), resetInput := false }
    else if btn.value = '.' ∧ '.' ∈ st.input_str.toList then
      some st
    else if st.input_str = "0" ∧ btn.value ≠ '.' then
      some { st with input_str := btn.label }
    else
      some { st with input_str := st.input_str ++ btn.label }
  else if btn.type = "operator" then
    if st.resetInput = false then
      if st.currentOp ≠ none then
        let st1 := calculate_result st
        match stod st1.input_str with
        | none => none
        | some v =>
            some { st1 with storedValue := v, currentOp := some btn.value, resetInput := true }
      else
        some { st with storedValue := stodOr0 st.input_str, currentOp := some btn.value, resetInput := true }
    else
      some { st with currentOp := some btn.value, resetInput := true }
  else if btn.type = "clear" then
    some { input_str := "0", storedValue := Dbl.finite 0,
           currentOp := none, resetInput := true }
  else if btn.type = "equals" then
    some (calculate_result st)
  else
    some st

/-- A digit or decimal-point button (`type = "number"`). -/
def numBtn (c : Char) : Button := { label := String.singleton c, type := "number", value := c }

/-- An operator button (`type = "operator"`). -/
def opBtn (c : Char) : Button := { label := String.singleton c, type := "operator", value := c }

/-- The clear button. -/
def clearBtn : Button := { label := "C", type := "clear", value := 'C' }

/-- The equals button. -/
def eqBtn : Button := { label := "=", type := "equals", value := '=' }

/-- Feed a sequence of button presses to the engine; `none` once any press
raises. -/
def pressAll (bs : List Button) (st : EngineState) : Option EngineState :=
  bs.foldl (fun o b => o.bind (handle_button_press b)) (some st)

/-- `backspaceInput` from enhancer.h: `pop_back` on a buffer of length `> 1`,
reset to `"0"` otherwise.  There is no special case for the error
sentinels. -/
def backspaceInput (display : String) : String :=
  if 1 < display.length then String.mk display.toList.dropLast else "0"

/-- A history entry from enhancer.h. -/
structure HistoryEntry where
  expression : String
  result : String
deriving DecidableEq

/-- `maxHistory` from enhancer.h. -/
def maxHistory : ℕ := 10

/-- `CalculatorHistory::addEntry`: `push_front`, then `pop_back` when the
size exceeds `maxHistory`.  The head of the list is the front of the deque,
which is also the order `getHistory` exposes (most recent first). -/
def addEntry (history : List HistoryEntry) (expr result : String) : List HistoryEntry :=
  let h1 := { expression := expr, result := result } :: history
  if maxHistory < h1.length then h1.dropLast else h1

/-- `std::to_string(double)`: fixed-point with 6 fractional digits. -/
def toString6 (v : Dbl) : String :=
  match v with
  | .finite q =>
      let n := roundHalfEven (|q| * 10 ^ (6 : ℕ))
      let ip := (n / 10 ^ 6).toNat
      let fp := (n % 10 ^ 6).toNat
      (if q < 0 then "-" else "") ++ natStr ip ++ "." ++
        String.mk (List.replicate (6 - (natStr fp).length) '0') ++ natStr fp
  | .inf => "inf"
  | .neginf => "-inf"
  | .nan => "nan"

/-- The arithmetic `switch` of `calculate_result` as a function.  The `'/'`
row is the unguarded division; `calculate_result` reaches it only under its
`b != 0` test, and an unmatched operator leaves the initialiser `0`. -/
def dblApplyOp (op : Char) (a b : Dbl) : Dbl :=
  if op = '+' then Dbl.add a b
  else if op = '-' then Dbl.sub a b
  else if op = '*' then Dbl.mul a b
  else if op = '/' then Dbl.div a b
  else Dbl.finite 0

/-- Number of significant digit characters of a rendered numeral: digit
characters with the leading zeros (which are never significant) dropped. -/
def sigDigitCount (s : String) : ℕ :=
  ((s.toList.filter fun c => c.isDigit).dropWhile fun c => c = '0').length

/-- A numeral has its trailing fractional zeros trimmed: when it contains a
decimal point it ends neither in `'0'` nor in the point itself. -/
def trimmedNumeral (l : List Char) : Prop :=
  '.' ∈ l → (l.getLast? ≠ some '0' ∧ l.getLast? ≠ some '.')

/-- `safeCalculate` from enhancer.h (not called by the engine): the early
returns are modelled by `Except`. -/
def safeCalculate (a b : Dbl) (op : Char) : String :=
  let r : Except String Dbl :=
    if op = '+' then .ok (Dbl.add a b)
    else if op = '-' then .ok (Dbl.sub a b)
    else if op = '*' then .ok (Dbl.mul a b)
    else if op = '/' then
      if dblEq0 b then .error "Error: Div by 0" else .ok (Dbl.div a b)
    else .error "Error"
  match r with
  | .error s => s
  | .ok result => if dblIsNanOrInf result then "Error" else toString6 result

/-! ## The claims -/

/-- C1, counterexample: in the state reached by `Clear, 5, /, 0`, pressing
Equals sets the buffer to the engine's plain `"Error"` string, not to
`"Error: Div by 0"` as claimed. -/
theorem c1_counterexample :
    handle_button_press eqBtn
        { input_str := "0", storedValue := Dbl.finite 5, currentOp := some '/', resetInput := false } =
      some { input_str := "Error", storedValue := Dbl.finite 0, currentOp := none, resetInput := true } ∧
    ("Error" : String) ≠ "Error: Div by 0" := by
  exact ⟨by decide, by decide⟩

/-- C1 (amended): with `pendingOp = '/'` and a right operand that parses to
`0`, Equals sets the buffer to the sentinel `"Error"` (the string
`calculate_result` uses; the `safeCalculate` helper with its
`"Error: Div by 0"` string is not called by the engine), resets
`storedOperand` to `0` and clears `pendingOp`. -/
theorem c1_div_by_zero (st : EngineState) (h : st.currentOp = some '/')
    (hb : stodOr0 st.input_str = Dbl.finite 0) :
    handle_button_press eqBtn st =
      some { input_str := "Error", storedValue := Dbl.finite 0,
             currentOp := none, resetInput := true } := by
  have hc : calculate_result st =
      { input_str := "Error", storedValue := Dbl.finite 0,
        currentOp := none, resetInput := true } := by
    unfold calculate_result
    rw [h, hb]
    simp [dblNe0]
  simp [handle_button_press, eqBtn, hc]

/-- C1, witness: the amended theorem applied to the concrete
division-by-zero state. -/
theorem c1_witness :
    ((⟨"0", Dbl.finite 5, some '/', false⟩ : EngineState).currentOp = some '/' ∧
      stodOr0 "0" = Dbl.finite 0) ∧
    handle_button_press eqBtn ⟨"0", Dbl.finite 5, some '/', false⟩ =
      some ⟨"Error", Dbl.finite 0, none, true⟩ :=
  ⟨⟨rfl, by decide⟩, c1_div_by_zero ⟨"0", Dbl.finite 5, some '/', false⟩ rfl (by decide)⟩

/-- C2: a second operator pressed after an operand evaluates the pending
operation first and feeds the (re-parsed) displayed result back as the new
`storedOperand`, and the spec's chained trace
`Clear, 2, +, 3, *, 4, =` displays `"20"`: strict left-to-right, no
precedence. -/
theorem c2_chained_left_to_right (st : EngineState) (o2 : Char) (v : Dbl)
    (h1 : st.resetInput = false) (h2 : st.currentOp ≠ none)
    (h3 : stod (calculate_result st).input_str = some v) :
    handle_button_press (opBtn o2) st =
      some { input_str := (calculate_result st).input_str, storedValue := v,
             currentOp := some o2, resetInput := true } ∧
    pressAll [clearBtn, numBtn '2', opBtn '+', numBtn '3', opBtn '*', numBtn '4', eqBtn] initState =
      some { input_str := "20", storedValue := Dbl.finite 20,
             currentOp := none, resetInput := true } := by
  constructor
  · obtain ⟨c, hc⟩ := Option.ne_none_iff_exists'.mp h2
    simp [handle_button_press, opBtn, h1, hc, h3]
  · decide

/-- C2, witness: the general clause applied to the state reached by
`Clear, 2, +, 3` under the press of `*`. -/
theorem c2_witness :
    ((⟨"3", Dbl.finite 2, some '+', false⟩ : EngineState).resetInput = false ∧
      stod (calculate_result ⟨"3", Dbl.finite 2, some '+', false⟩).input_str =
        some (Dbl.finite 5)) ∧
    handle_button_press (opBtn '*') ⟨"3", Dbl.finite 2, some '+', false⟩ =
      some { input_str := (calculate_result ⟨"3", Dbl.finite 2, some '+', false⟩).input_str,
             storedValue := Dbl.finite 5, currentOp := some '*', resetInput := true } :=
  ⟨⟨rfl, by decide⟩,
    (c2_chained_left_to_right ⟨"3", Dbl.finite 2, some '+', false⟩ '*' (Dbl.finite 5)
      rfl (by decide) (by decide)).1⟩

/-- C3: the claim that a BinaryOp press never raises is wrong on the chained
path.  After `Clear, 5, /, 0` the pending division by zero leaves the buffer
at `"Error"`, and the next operator press runs the unguarded
`storedValue = std::stod(input_str)`, which raises `std::invalid_argument`
(modelled by `none`) instead of treating the parse failure as `0.0`.  The
sibling branch for a first operator is guarded and indeed never raises. -/
theorem c3_operator_press_raises :
    pressAll [clearBtn, numBtn '5', opBtn '/', numBtn '0', opBtn '+'] initState = none ∧
    handle_button_press (opBtn '+') ⟨"abc", Dbl.finite 0, none, false⟩ =
      some ⟨"abc", Dbl.finite 0, some '+', true⟩ := by
  exact ⟨by decide, by decide⟩

/-- C4, counterexample: Backspace on the sentinel `"Error"` drops the last
character like on any other buffer, yielding `"Erro"`, not `"0"`. -/
theorem c4_counterexample : backspaceInput "Error" = "Erro" ∧ ("Erro" : String) ≠ "0" := by
  exact ⟨by decide, by decide⟩

/-- C4 (amended): Backspace drops the last character whenever the buffer is
longer than one character — including on the error sentinels, which are not
special-cased — and resets to `"0"` only when the length is at most one. -/
theorem c4_backspace (s : String) :
    (1 < s.length → backspaceInput s = String.mk s.toList.dropLast) ∧
    (s.length ≤ 1 → backspaceInput s = "0") ∧
    backspaceInput "Error" = "Erro" ∧
    backspaceInput "Error: Div by 0" = "Error: Div by " := by
  refine ⟨?_, ?_, by decide, by decide⟩
  · intro h
    simp [backspaceInput, h]
  · intro h
    rw [backspaceInput, if_neg (by omega)]

/-- C4, witness: the two general clauses at concrete buffers. -/
theorem c4_witness :
    (1 < ("12" : String).length ∧ backspaceInput "12" = String.mk ("12" : String).toList.dropLast) ∧
    (("7" : String).length ≤ 1 ∧ backspaceInput "7" = "0") :=
  ⟨⟨by decide, (c4_backspace "12").1 (by decide)⟩,
    ⟨by decide, (c4_backspace "7").2.1 (by decide)⟩⟩

/-- C5, counterexample: an infinite result of a binary evaluation is not
mapped to `"Error"` by the engine; `calculate_result` formats and stores it
(`"inf"`, `storedOperand = inf`). -/
theorem c5_counterexample :
    calculate_result { input_str := "1", storedValue := Dbl.inf, currentOp := some '+', resetInput := false } =
      { input_str := "inf", storedValue := Dbl.inf, currentOp := none, resetInput := true } ∧
    dblIsNanOrInf (Dbl.add Dbl.inf (stodOr0 "1")) = true ∧
    ("inf" : String) ≠ "Error" := by
  exact ⟨by decide, by decide, by decide⟩

/-- C5 (amended): the engine has no NaN/infinity check.  For `+`, `-`, `*`,
when the arithmetic result is NaN or infinite, `calculate_result` writes the
formatted special value (never the `"Error"` sentinel) into the buffer and
stores it as the new `storedOperand`; `pendingOp` is cleared as always.
Only the stand-alone `safeCalculate` helper of enhancer.h, which the engine
never calls, maps such results to `"Error"`. -/
theorem c5_no_nan_inf_check (st : EngineState) (op : Char)
    (hop : st.currentOp = some op) (hmem : op = '+' ∨ op = '-' ∨ op = '*')
    (hs : dblIsNanOrInf (dblApplyOp op st.storedValue (stodOr0 st.input_str)) = true) :
    (calculate_result st =
      { input_str := format_double (dblApplyOp op st.storedValue (stodOr0 st.input_str)),
        storedValue := dblApplyOp op st.storedValue (stodOr0 st.input_str),
        currentOp := none, resetInput := true } ∧
      format_double (dblApplyOp op st.storedValue (stodOr0 st.input_str)) ≠ "Error") ∧
    (∀ a b : Dbl, dblIsNanOrInf (dblApplyOp op a b) = true → safeCalculate a b op = "Error") := by
  have hfmt : ∀ d : Dbl, dblIsNanOrInf d = true → format_double d ≠ "Error" := by
    intro d hd
    cases d with
    | finite q => simp [dblIsNanOrInf] at hd
    | inf => decide
    | neginf => decide
    | nan => decide
  constructor
  · constructor
    · unfold calculate_result
      rw [hop]
      rcases hmem with h | h | h <;> subst h <;> simp [dblApplyOp]
    · exact hfmt _ hs
  · intro a b hab
    rcases hmem with h | h | h <;> subst h <;>
      simp [safeCalculate, dblApplyOp] at hab ⊢ <;> simp [hab]

/-- C5, witness: the amended theorem at the concrete infinite addition. -/
theorem c5_witness :
    ((⟨"1", Dbl.inf, some '+', false⟩ : EngineState).currentOp = some '+' ∧
      dblIsNanOrInf (dblApplyOp '+' Dbl.inf (stodOr0 "1")) = true) ∧
    calculate_result ⟨"1", Dbl.inf, some '+', false⟩ =
      { input_str := format_double (dblApplyOp '+' Dbl.inf (stodOr0 "1")),
        storedValue := dblApplyOp '+' Dbl.inf (stodOr0 "1"),
        currentOp := none, resetInput := true } :=
  ⟨⟨rfl, by decide⟩,
    ((c5_no_nan_inf_check ⟨"1", Dbl.inf, some '+', false⟩ '+' rfl (Or.inl rfl) (by decide)).1).1⟩

/-- C7: digit and decimal-point entry.  With `awaitingNewEntry` set the
buffer is replaced (`"0."` for a leading point) and the flag cleared; with
it clear, a second point is a no-op, a digit replaces a bare `"0"`, and
otherwise the character is appended; the spec's trace
`Clear, 1, ., ., 5` displays `"1.5"`. -/
theorem c7_digit_entry (st : EngineState) (c : Char) :
    (st.resetInput = true →
        handle_button_press (numBtn c) st =
          some { st with input_str := (if c = '.' then "0." else String.singleton c), resetInput := false }) ∧
    (st.resetInput = false → c = '.' → '.' ∈ st.input_str.toList →
        handle_button_press (numBtn c) st = some st) ∧
    (st.resetInput = false → st.input_str = "0" → c ≠ '.' →
        handle_button_press (numBtn c) st = some { st with input_str := String.singleton c }) ∧
    (st.resetInput = false → ¬ (c = '.' ∧ '.' ∈ st.input_str.toList) →
        ¬ (st.input_str = "0" ∧ c ≠ '.') →
        handle_button_press (numBtn c) st = some { st with input_str := st.input_str ++ String.singleton c }) ∧
    pressAll [clearBtn, numBtn '1', numBtn '.', numBtn '.', numBtn '5'] initState =
      some { input_str := "1.5", storedValue := Dbl.finite 0, currentOp := none, resetInput := false } := by
  refine ⟨?_, ?_, ?_, ?_, by decide⟩
  · intro h
    simp [handle_button_press, numBtn, h]
  · intro h h2 h3
    have h3d : '.' ∈ st.input_str.data := h3
    simp [handle_button_press, numBtn, h, h2, h3d]
  · intro h h2 h3
    simp [handle_button_press, numBtn, h, h2, h3]
  · intro h h2 h3
    have hc : ¬ (c = '.' ∧ '.' ∈ st.input_str.data) := fun hx => h2 ⟨hx.1, hx.2⟩
    simp [handle_button_press, numBtn, h, hc, h3]

/-- C7, witness: the replace-on-fresh-entry clause at a concrete state. -/
theorem c7_witness :
    initState.resetInput = true ∧
    handle_button_press (numBtn '7') initState =
      some { initState with input_str := (if '7' = '.' then "0." else String.singleton '7'), resetInput := false } :=
  ⟨rfl, (c7_digit_entry initState '7').1 rfl⟩

/-- C8: an operator pressed right after another operator performs no
evaluation and changes neither the display nor `storedOperand`; only the
pending operator is replaced.  (Every operator press leaves
`resetInput = true`, so the second press takes the no-evaluation branch.) -/
theorem c8_second_operator_retained (st s1 : EngineState) (o1 o2 : Char)
    (h : handle_button_press (opBtn o1) st = some s1) :
    s1.resetInput = true ∧
    handle_button_press (opBtn o2) s1 =
      some { input_str := s1.input_str, storedValue := s1.storedValue,
             currentOp := some o2, resetInput := true } := by
  have hr : s1.resetInput = true := by
    simp only [handle_button_press, opBtn] at h
    by_cases h1 : st.resetInput = false
    · rw [if_pos h1] at h
      cases hst : st.currentOp with
      | none =>
          rw [hst] at h
          simp at h
          subst h
          rfl
      | some c =>
          rw [hst] at h
          cases hstod : stod (calculate_result st).input_str with
          | none =>
              rw [hstod] at h
              simp at h
          | some v =>
              rw [hstod] at h
              simp at h
              subst h
              rfl
    · rw [if_neg h1] at h
      simp at h
      subst h
      rfl
  refine ⟨hr, ?_⟩
  simp only [handle_button_press, opBtn]
  rw [hr]
  simp

/-- C8, witness: pressing `+` then `-` from a typed operand. -/
theorem c8_witness :
    handle_button_press (opBtn '+') ⟨"2", Dbl.finite 0, none, false⟩ =
      some ⟨"2", Dbl.finite 2, some '+', true⟩ ∧
    handle_button_press (opBtn '-') ⟨"2", Dbl.finite 2, some '+', true⟩ =
      some { input_str := ("2" : String), storedValue := Dbl.finite 2,
             currentOp := some '-', resetInput := true } :=
  ⟨by decide,
    (c8_second_operator_retained ⟨"2", Dbl.finite 0, none, false⟩ ⟨"2", Dbl.finite 2, some '+', true⟩
      '+' '-' (by decide)).2⟩

/-- C9: `addEntry` inserts at the front, never grows the log beyond 10
entries, and appending 11 entries to an empty log leaves exactly 10, most
recent first, with the first-appended entry evicted from the back. -/
theorem c9_history_cap :
    (∀ (e r : String) (h : List HistoryEntry),
        (addEntry h e r).head? = some { expression := e, result := r }) ∧
    (∀ (e r : String) (h : List HistoryEntry), h.length ≤ 10 → (addEntry h e r).length ≤ 10) ∧
    ((List.range 11).foldl (fun h i => addEntry h (natStr (i + 1)) (natStr (i + 1))) []).length = 10 ∧
    ((List.range 11).foldl (fun h i => addEntry h (natStr (i + 1)) (natStr (i + 1))) []).head? =
      some { expression := "11", result := "11" } ∧
    { expression := ("1" : String), result := ("1" : String) } ∉
      (List.range 11).foldl (fun h i => addEntry h (natStr (i + 1)) (natStr (i + 1))) [] ∧
    ((List.range 11).foldl (fun h i => addEntry h (natStr (i + 1)) (natStr (i + 1))) []).getLast? =
      some { expression := "2", result := "2" } := by
  refine ⟨?_, ?_, by decide, by decide, by decide, by decide⟩
  · intro e r h
    cases h with
    | nil => rfl
    | cons x t =>
        simp only [addEntry]
        split
        · rfl
        · rfl
  · intro e r h hl
    simp only [addEntry]
    split
    · simp [List.length_dropLast]
      omega
    · simp only [List.length_cons]
      simp only [maxHistory, List.length_cons] at *
      omega

/-- C9, witness: the capped-length clause at an empty log. -/
theorem c9_witness :
    ([] : List HistoryEntry).length ≤ 10 ∧ (addEntry [] "1+1" "2").length ≤ 10 :=
  ⟨by decide, (c9_history_cap.2.1 "1+1" "2" [] (by decide))⟩

/-- C10: with no pending operator, Equals is a complete no-op: the buffer,
the stored operand, the pending operator and the `resetInput` flag are all
unchanged (`calculate_result` returns immediately when `currentOp == 0`). -/
theorem c10_equals_noop (st : EngineState) (h : st.currentOp = none) :
    handle_button_press eqBtn st = some st := by
  have hc : calculate_result st = st := by
    unfold calculate_result
    rw [h]
  simp [handle_button_press, eqBtn, hc]

/-- C10, witness: Equals on the initial state. -/
theorem c10_witness : initState.currentOp = none ∧ handle_button_press eqBtn initState = some initState :=
  ⟨rfl, c10_equals_noop initState rfl⟩

/-! ### Digit and trimming lemmas for the formatter -/

theorem natDigitsAux_eq (fuel : ℕ) : ∀ n : ℕ, n < fuel → natDigitsAux fuel n = Nat.digits 10 n := by
  induction fuel with
  | zero => intro n h; omega
  | succ f ih =>
      intro n h
      by_cases hn : n = 0
      · simp [natDigitsAux, hn]
      · rw [natDigitsAux, if_neg hn, Nat.digits_def' (by norm_num) (Nat.pos_of_ne_zero hn)]
        have hf : 0 < f := by
          rcases Nat.eq_zero_or_pos f with h0 | h0
          · omega
          · exact h0
        have : n / 10 < f := lt_of_le_of_lt (Nat.div_le_div_right (by omega)) (Nat.div_lt_self hf (by norm_num))
        rw [ih (n / 10) this]

theorem natDigits_eq (n : ℕ) : natDigits n = Nat.digits 10 n :=
  natDigitsAux_eq (n + 1) n (Nat.lt_succ_self n)

theorem digitChar_props (d : ℕ) :
    (digitChar d).isDigit = true ∧ digitChar d ≠ 'e' ∧ digitChar d ≠ '.' := by
  unfold digitChar
  split
  all_goals exact ⟨by decide, by decide, by decide⟩

theorem digitChar_ne_zero (d : ℕ) (hd : d ≠ 0) : digitChar d ≠ '0' := by
  unfold digitChar
  split
  · simp_all
  all_goals decide

theorem digitChars_image (m : ℕ) : ∀ c ∈ digitChars m, ∃ d, c = digitChar d := by
  intro c hc
  simp only [digitChars, List.mem_map, List.mem_reverse] at hc
  obtain ⟨d, _, hd⟩ := hc
  exact ⟨d, hd.symm⟩

theorem digitChars_length (m : ℕ) (h1 : 10 ^ 9 ≤ m) (h2 : m < 10 ^ 10) :
    (digitChars m).length = 10 := by
  have hm : m ≠ 0 := by positivity
  have hlen : (Nat.digits 10 m).length = Nat.log 10 m + 1 :=
    Nat.digits_len 10 m (by norm_num) hm
  have hlog : Nat.log 10 m = 9 := Nat.log_eq_of_pow_le_of_lt_pow h1 h2
  simp [digitChars, natDigits_eq, hlen, hlog]

theorem digitChars_head (m : ℕ) (hm : m ≠ 0) :
    ∃ c, (digitChars m).head? = some c ∧ c ≠ '0' ∧ c.isDigit = true := by
  have hne : Nat.digits 10 m ≠ [] := Nat.digits_ne_nil_iff_ne_zero.mpr hm
  have hlast : (Nat.digits 10 m).getLast hne ≠ 0 := Nat.getLast_digit_ne_zero 10 hm
  refine ⟨digitChar ((Nat.digits 10 m).getLast hne), ?_, digitChar_ne_zero _ hlast, (digitChar_props _).1⟩
  simp only [digitChars, natDigits_eq]
  rw [List.head?_map, List.head?_reverse, List.getLast?_eq_getLast _ hne]
  rfl

theorem head?_dropWhile_not (p : Char → Bool) (l : List Char) :
    ∀ c, (l.dropWhile p).head? = some c → p c = false := by
  induction l with
  | nil => simp
  | cons a t ih =>
      intro c hc
      by_cases h : p a
      · rw [List.dropWhile_cons_of_pos h] at hc
        exact ih c hc
      · rw [List.dropWhile_cons_of_neg h] at hc
        simp at hc
        subst hc
        simpa using h

theorem mem_dropTrailingZeros (l : List Char) (c : Char) (hc : c ∈ dropTrailingZeros l) : c ∈ l := by
  simp only [dropTrailingZeros, List.mem_reverse] at hc
  have hsub : List.Sublist (l.reverse.dropWhile (fun c => decide (c = '0'))) l.reverse :=
    List.dropWhile_sublist _
  have := hsub.subset hc
  simpa using this

theorem dropTrailingZeros_length (l : List Char) : (dropTrailingZeros l).length ≤ l.length := by
  simp only [dropTrailingZeros, List.length_reverse]
  calc (l.reverse.dropWhile (fun c => c = '0')).length ≤ l.reverse.length :=
        (List.dropWhile_sublist _).length_le
    _ = l.length := List.length_reverse _

theorem dropTrailingZeros_getLast (l : List Char) : (dropTrailingZeros l).getLast? ≠ some '0' := by
  simp only [dropTrailingZeros]
  rw [List.getLast?_reverse]
  intro h
  have := head?_dropWhile_not (fun c => c = '0') l.reverse '0' h
  simp at this

theorem dropTrailingZeros_head (l : List Char) (h : dropTrailingZeros l ≠ []) :
    (dropTrailingZeros l).head? = l.head? := by
  obtain ⟨t, ht⟩ := List.dropWhile_suffix (l := l.reverse) (fun c => c = '0')
  have hl : l = dropTrailingZeros l ++ t.reverse := by
    have h2 := congrArg List.reverse ht
    simpa [dropTrailingZeros] using h2.symm
  conv_rhs => rw [hl]
  rw [List.head?_append]
  cases hdz : (dropTrailingZeros l).head? with
  | none => exact absurd (List.head?_eq_none_iff.mp hdz) h
  | some c => simp

theorem dropTrailingZeros_ne_nil (l : List Char) (c : Char) (hl : l.head? = some c)
    (hc : c ≠ '0') : dropTrailingZeros l ≠ [] := by
  intro hnil
  have : l.reverse.dropWhile (fun x => x = '0') = [] := by
    have := congrArg List.reverse hnil
    simpa [dropTrailingZeros] using this
  have hall := List.dropWhile_eq_nil_iff.mp this
  have hcl : c ∈ l := by
    cases l with
    | nil => simp at hl
    | cons a t => simp at hl; simp [hl]
  have := hall c (by simpa using hcl)
  simp at this
  exact hc this

theorem numDigits_eq_log (n : ℕ) (hn : n ≠ 0) : numDigits n = Nat.log 10 n + 1 := by
  rw [numDigits, natDigits_eq, Nat.digits_len 10 n (by norm_num) hn]

theorem pow_numDigits_le (n : ℕ) (hn : n ≠ 0) : 10 ^ (numDigits n - 1) ≤ n := by
  rw [numDigits_eq_log n hn]
  simpa using Nat.pow_log_le_self 10 hn

theorem lt_pow_numDigits (n : ℕ) : n < 10 ^ numDigits n := by
  rw [numDigits, natDigits_eq]
  exact Nat.lt_base_pow_length_digits (by norm_num)

theorem g10exp0_bracket (q : ℚ) (hq : 0 < q) :
    (10 : ℚ) ^ g10exp0 q ≤ q ∧ q < 10 ^ (g10exp0 q + 1) := by
  have hnum : 0 < q.num := Rat.num_pos.mpr hq
  have hn0 : q.num.natAbs ≠ 0 := Int.natAbs_ne_zero.mpr hnum.ne'
  have hd0 : q.den ≠ 0 := q.den_nz
  have hdpos : (0 : ℚ) < (q.den : ℚ) := by
    exact_mod_cast Nat.pos_of_ne_zero hd0
  have hen1 : 1 ≤ numDigits q.num.natAbs := by rw [numDigits_eq_log _ hn0]; omega
  have hed1 : 1 ≤ numDigits q.den := by rw [numDigits_eq_log _ hd0]; omega
  have hnl : (10 : ℚ) ^ ((numDigits q.num.natAbs : ℤ) - 1) ≤ (q.num.natAbs : ℚ) := by
    calc (10 : ℚ) ^ ((numDigits q.num.natAbs : ℤ) - 1)
        = (10 : ℚ) ^ (((numDigits q.num.natAbs - 1 : ℕ)) : ℤ) := by congr 1; omega
      _ = (10 : ℚ) ^ (numDigits q.num.natAbs - 1 : ℕ) := by rw [zpow_natCast]
      _ ≤ _ := by exact_mod_cast pow_numDigits_le q.num.natAbs hn0
  have hnu : (q.num.natAbs : ℚ) < (10 : ℚ) ^ (numDigits q.num.natAbs : ℤ) := by
    rw [zpow_natCast]
    exact_mod_cast lt_pow_numDigits q.num.natAbs
  have hdl : (10 : ℚ) ^ ((numDigits q.den : ℤ) - 1) ≤ (q.den : ℚ) := by
    calc (10 : ℚ) ^ ((numDigits q.den : ℤ) - 1)
        = (10 : ℚ) ^ (((numDigits q.den - 1 : ℕ)) : ℤ) := by congr 1; omega
      _ = (10 : ℚ) ^ (numDigits q.den - 1 : ℕ) := by rw [zpow_natCast]
      _ ≤ _ := by exact_mod_cast pow_numDigits_le q.den hd0
  have hdu : (q.den : ℚ) < (10 : ℚ) ^ (numDigits q.den : ℤ) := by
    rw [zpow_natCast]
    exact_mod_cast lt_pow_numDigits q.den
  have hq_eq : q = (q.num.natAbs : ℚ) / (q.den : ℚ) := by
    have h1 : ((q.num.natAbs : ℕ) : ℚ) = ((q.num : ℤ) : ℚ) := by
      rw [Int.cast_natAbs]
      exact_mod_cast abs_of_nonneg hnum.le
    rw [h1, Rat.num_div_den]
  have hA : (10 : ℚ) ^ ((numDigits q.num.natAbs : ℤ) - (numDigits q.den : ℤ) - 1) ≤ q := by
    have key : (10 : ℚ) ^ ((numDigits q.num.natAbs : ℤ) - (numDigits q.den : ℤ) - 1) *
        (q.den : ℚ) ≤ (q.num.natAbs : ℚ) := by
      calc (10 : ℚ) ^ ((numDigits q.num.natAbs : ℤ) - (numDigits q.den : ℤ) - 1) * (q.den : ℚ)
          ≤ (10 : ℚ) ^ ((numDigits q.num.natAbs : ℤ) - (numDigits q.den : ℤ) - 1) *
              (10 : ℚ) ^ (numDigits q.den : ℤ) := by
            apply mul_le_mul_of_nonneg_left hdu.le (by positivity)
        _ = (10 : ℚ) ^ ((numDigits q.num.natAbs : ℤ) - 1) := by
            rw [← zpow_add₀ (by norm_num : (10 : ℚ) ≠ 0)]
            congr 1
            omega
        _ ≤ _ := hnl
    have h2 := (le_div_iff₀ hdpos).mpr key
    rwa [← hq_eq] at h2
  have hB : q < (10 : ℚ) ^ ((numDigits q.num.natAbs : ℤ) - (numDigits q.den : ℤ) + 1) := by
    have key : (q.num.natAbs : ℚ) <
        (10 : ℚ) ^ ((numDigits q.num.natAbs : ℤ) - (numDigits q.den : ℤ) + 1) * (q.den : ℚ) := by
      calc (q.num.natAbs : ℚ) < (10 : ℚ) ^ (numDigits q.num.natAbs : ℤ) := hnu
        _ = (10 : ℚ) ^ ((numDigits q.num.natAbs : ℤ) - (numDigits q.den : ℤ) + 1) *
              (10 : ℚ) ^ ((numDigits q.den : ℤ) - 1) := by
            rw [← zpow_add₀ (by norm_num : (10 : ℚ) ≠ 0)]
            congr 1
            omega
        _ ≤ (10 : ℚ) ^ ((numDigits q.num.natAbs : ℤ) - (numDigits q.den : ℤ) + 1) * (q.den : ℚ) := by
            apply mul_le_mul_of_nonneg_left hdl (by positivity)
    have h2 := (div_lt_iff₀ hdpos).mpr key
    rwa [← hq_eq] at h2
  simp only [g10exp0]
  by_cases hlt : q < (10 : ℚ) ^ ((numDigits q.num.natAbs : ℤ) - (numDigits q.den : ℤ))
  · rw [if_pos hlt]
    constructor
    · exact hA
    · have : (numDigits q.num.natAbs : ℤ) - (numDigits q.den : ℤ) - 1 + 1 =
          (numDigits q.num.natAbs : ℤ) - (numDigits q.den : ℤ) := by omega
      rw [this]
      exact hlt
  · rw [if_neg hlt]
    exact ⟨le_of_not_lt hlt, hB⟩

theorem roundHalfEven_cases (q : ℚ) : roundHalfEven q = ⌊q⌋ ∨ roundHalfEven q = ⌊q⌋ + 1 := by
  unfold roundHalfEven
  dsimp only
  split_ifs <;> simp

theorem roundHalfEven_ge (q : ℚ) (lo : ℤ) (h : (lo : ℚ) ≤ q) : lo ≤ roundHalfEven q := by
  have hf : lo ≤ ⌊q⌋ := Int.le_floor.mpr h
  rcases roundHalfEven_cases q with h1 | h1 <;> omega

theorem roundHalfEven_le (q : ℚ) (hi : ℤ) (h : q < (hi : ℚ)) : roundHalfEven q ≤ hi := by
  have hf : ⌊q⌋ < hi := Int.floor_lt.mpr h
  rcases roundHalfEven_cases q with h1 | h1 <;> omega

theorem g10mant0_bounds (q : ℚ) (hq : 0 < q) :
    10 ^ 9 ≤ g10mant0 q ∧ g10mant0 q ≤ 10 ^ 10 := by
  obtain ⟨hA, hB⟩ := g10exp0_bracket q hq
  have hne : (10 : ℚ) ≠ 0 := by norm_num
  have hpow : (0 : ℚ) < (10 : ℚ) ^ ((9 : ℤ) - g10exp0 q) := by positivity
  have h1 : (((10 : ℤ) ^ 9 : ℤ) : ℚ) ≤ q * 10 ^ ((9 : ℤ) - g10exp0 q) := by
    have : (10 : ℚ) ^ (g10exp0 q) * (10 : ℚ) ^ ((9 : ℤ) - g10exp0 q) = (10 : ℚ) ^ (9 : ℤ) := by
      rw [← zpow_add₀ hne]
      congr 1
      omega
    calc (((10 : ℤ) ^ 9 : ℤ) : ℚ) = (10 : ℚ) ^ (9 : ℤ) := by push_cast; norm_num
      _ = (10 : ℚ) ^ (g10exp0 q) * (10 : ℚ) ^ ((9 : ℤ) - g10exp0 q) := this.symm
      _ ≤ q * 10 ^ ((9 : ℤ) - g10exp0 q) := mul_le_mul_of_nonneg_right hA hpow.le
  have h2 : q * 10 ^ ((9 : ℤ) - g10exp0 q) < (((10 : ℤ) ^ 10 : ℤ) : ℚ) := by
    have : (10 : ℚ) ^ (g10exp0 q + 1) * (10 : ℚ) ^ ((9 : ℤ) - g10exp0 q) = (10 : ℚ) ^ (10 : ℤ) := by
      rw [← zpow_add₀ hne]
      congr 1
      omega
    calc q * 10 ^ ((9 : ℤ) - g10exp0 q)
        < (10 : ℚ) ^ (g10exp0 q + 1) * (10 : ℚ) ^ ((9 : ℤ) - g10exp0 q) :=
          mul_lt_mul_of_pos_right hB hpow
      _ = (10 : ℚ) ^ (10 : ℤ) := this
      _ = (((10 : ℤ) ^ 10 : ℤ) : ℚ) := by push_cast; norm_num
  exact ⟨roundHalfEven_ge _ _ h1, roundHalfEven_le _ _ h2⟩

theorem g10mant_bounds (q : ℚ) (hq : 0 < q) :
    10 ^ 9 ≤ g10mant q ∧ g10mant q < 10 ^ 10 := by
  obtain ⟨h1, h2⟩ := g10mant0_bounds q hq
  unfold g10mant
  split
  · norm_num
  · next hne => exact ⟨h1, lt_of_le_of_ne h2 hne⟩

theorem strToList_append (s t : String) : (s ++ t).toList = s.toList ++ t.toList := rfl

theorem strToList_mk (l : List Char) : (String.mk l).toList = l := rfl

theorem mem_of_getLast? {l : List Char} {c : Char} (h : l.getLast? = some c) : c ∈ l := by
  cases l with
  | nil => simp at h
  | cons a t =>
      rw [List.getLast?_eq_getLast _ (by simp)] at h
      have h2 : (a :: t).getLast (by simp) = c := by simpa using h
      rw [← h2]
      exact List.getLast_mem _

theorem fixedRender_spec (D : List Char) (x : ℤ) (c0 : Char)
    (hlen : D.length = 10) (hhead : D.head? = some c0) (hc0 : c0 ≠ '0')
    (hmem : ∀ c ∈ D, ∃ d, c = digitChar d) :
    'e' ∉ (fixedRender D x).toList ∧
    (((fixedRender D x).toList.filter fun c => c.isDigit).dropWhile fun c => c = '0').length ≤ 10 ∧
    trimmedNumeral (fixedRender D x).toList ∧
    (fixedRender D x).toList ≠ [] := by
  have hdig : ∀ c ∈ D, c.isDigit = true := by
    intro c hc
    obtain ⟨d, rfl⟩ := hmem c hc
    exact (digitChar_props d).1
  have hneD : ∀ c ∈ D, c ≠ 'e' ∧ c ≠ '.' := by
    intro c hc
    obtain ⟨d, rfl⟩ := hmem c hc
    exact ⟨(digitChar_props d).2.1, (digitChar_props d).2.2⟩
  cases D with
  | nil => simp at hhead
  | cons a tl =>
  have ha : a = c0 := by simpa using hhead
  subst ha
  have htl9 : tl.length = 9 := by simpa using hlen
  by_cases hx : 0 ≤ x
  · have hip : (a :: tl).take (x.toNat + 1) = a :: tl.take x.toNat := rfl
    have hipdig : ∀ c ∈ (a :: tl).take (x.toNat + 1), c.isDigit = true := by
      intro c hc
      exact hdig c (List.take_subset _ _ hc)
    have hipne : ∀ c ∈ (a :: tl).take (x.toNat + 1), c ≠ 'e' ∧ c ≠ '.' := by
      intro c hc
      exact hneD c (List.take_subset _ _ hc)
    have htzsub : ∀ c ∈ dropTrailingZeros ((a :: tl).drop (x.toNat + 1)), c ∈ a :: tl := by
      intro c hc
      exact List.drop_subset _ _ (mem_dropTrailingZeros _ c hc)
    have hlentz : (dropTrailingZeros ((a :: tl).drop (x.toNat + 1))).length ≤ 9 - x.toNat := by
      calc (dropTrailingZeros ((a :: tl).drop (x.toNat + 1))).length
          ≤ ((a :: tl).drop (x.toNat + 1)).length := dropTrailingZeros_length _
        _ = (a :: tl).length - (x.toNat + 1) := List.length_drop _ _
        _ = 9 - x.toNat := by simp [htl9]
    by_cases htz : dropTrailingZeros ((a :: tl).drop (x.toNat + 1)) = []
    · rw [fixedRender, if_pos hx, if_pos htz]
      have hL : (String.mk ((a :: tl).take (x.toNat + 1)) ++ "").toList =
          (a :: tl).take (x.toNat + 1) := by
        rw [strToList_append, strToList_mk]
        simp
      rw [hL]
      refine ⟨?_, ?_, ?_, ?_⟩
      · intro hmem2
        exact ((hipne 'e' hmem2).1 rfl).elim
      · rw [List.filter_eq_self.mpr hipdig, hip,
          List.dropWhile_cons_of_neg (by simpa using hc0)]
        have h1 : (tl.take x.toNat).length = min x.toNat 9 := by
          rw [List.length_take, htl9]
        simp only [List.length_cons, h1]
        omega
      · intro hdot
        exact (((hipne '.') hdot).2 rfl).elim
      · rw [hip]
        simp
    · rw [fixedRender, if_pos hx, if_neg htz]
      have hL : (String.mk ((a :: tl).take (x.toNat + 1)) ++
          ("." ++ String.mk (dropTrailingZeros ((a :: tl).drop (x.toNat + 1))))).toList =
          (a :: tl).take (x.toNat + 1) ++
            '.' :: dropTrailingZeros ((a :: tl).drop (x.toNat + 1)) := by
        rw [strToList_append, strToList_mk]
        rfl
      rw [hL]
      obtain ⟨clast, hclast⟩ : ∃ c, (dropTrailingZeros ((a :: tl).drop (x.toNat + 1))).getLast? =
          some c := ⟨_, List.getLast?_eq_getLast _ htz⟩
      have hlastapp : ((a :: tl).take (x.toNat + 1) ++
          '.' :: dropTrailingZeros ((a :: tl).drop (x.toNat + 1))).getLast? = some clast := by
        rw [List.getLast?_append]
        have h1 : ('.' :: dropTrailingZeros ((a :: tl).drop (x.toNat + 1))).getLast? =
            some clast := by
          rw [show ('.' :: dropTrailingZeros ((a :: tl).drop (x.toNat + 1))) =
            ['.'] ++ dropTrailingZeros ((a :: tl).drop (x.toNat + 1)) from rfl]
          rw [List.getLast?_append, hclast]
          rfl
        rw [h1]
        rfl
      refine ⟨?_, ?_, ?_, ?_⟩
      · intro hmem2
        rw [List.mem_append] at hmem2
        rcases hmem2 with hmem2 | hmem2
        · exact ((hipne 'e' hmem2).1 rfl).elim
        · rcases List.mem_cons.mp hmem2 with h | h
          · exact absurd h.symm (by decide)
          · exact ((hneD 'e' (htzsub 'e' h)).1 rfl).elim
      · rw [List.filter_append, List.filter_eq_self.mpr hipdig]
        have hdotf : List.filter (fun c => c.isDigit)
            ('.' :: dropTrailingZeros ((a :: tl).drop (x.toNat + 1))) =
            dropTrailingZeros ((a :: tl).drop (x.toNat + 1)) := by
          rw [List.filter_cons_of_neg (by decide)]
          exact List.filter_eq_self.mpr fun c hc => hdig c (htzsub c hc)
        rw [hdotf, hip, List.cons_append, List.dropWhile_cons_of_neg (by simpa using hc0)]
        have h1 : (tl.take x.toNat).length = min x.toNat 9 := by
          rw [List.length_take, htl9]
        simp only [List.length_cons, List.length_append, h1]
        omega
      · intro hdot
        rw [hlastapp]
        constructor
        · intro hbad
          have : clast = '0' := by simpa using hbad
          exact absurd (this ▸ hclast) (dropTrailingZeros_getLast _)
        · intro hbad
          have hc : clast = '.' := by simpa using hbad
          have hmem3 := htzsub clast (mem_of_getLast? hclast)
          exact (hneD clast hmem3).2 hc
      · simp [hip]
  · rw [fixedRender, if_neg hx, strToList_mk]
    have hTne : dropTrailingZeros (a :: tl) ≠ [] :=
      dropTrailingZeros_ne_nil (a :: tl) a (by simp) hc0
    have hThead : (dropTrailingZeros (a :: tl)).head? = some a := by
      rw [dropTrailingZeros_head _ hTne]
      rfl
    have hTsub : ∀ c ∈ dropTrailingZeros (a :: tl), c ∈ a :: tl := fun c hc =>
      mem_dropTrailingZeros _ c hc
    obtain ⟨clast, hclast⟩ : ∃ c, (dropTrailingZeros (a :: tl)).getLast? = some c :=
      ⟨_, List.getLast?_eq_getLast _ hTne⟩
    refine ⟨?_, ?_, ?_, ?_⟩
    · intro hmem2
      rcases List.mem_cons.mp hmem2 with h | h
      · exact absurd h.symm (by decide)
      rcases List.mem_cons.mp h with h2 | h2
      · exact absurd h2.symm (by decide)
      rw [List.mem_append] at h2
      rcases h2 with h2 | h2
      · rw [List.mem_replicate] at h2
        exact absurd h2.2.symm (by decide)
      · exact ((hneD 'e' (hTsub 'e' h2)).1 rfl).elim
    · rw [List.filter_cons_of_pos (by decide), List.filter_cons_of_neg (by decide)]
      have hfz : List.filter (fun c => c.isDigit)
          (List.replicate (x.natAbs - 1) '0' ++ dropTrailingZeros (a :: tl)) =
          List.replicate (x.natAbs - 1) '0' ++ dropTrailingZeros (a :: tl) := by
        apply List.filter_eq_self.mpr
        intro c hc
        rw [List.mem_append] at hc
        rcases hc with hc | hc
        · rw [List.mem_replicate] at hc
          rw [hc.2]
          decide
        · exact hdig c (hTsub c hc)
      rw [hfz, List.dropWhile_cons_of_pos (by decide),
        List.dropWhile_append_of_pos (by
          intro c hc
          rw [List.mem_replicate] at hc
          simp [hc.2])]
      cases hT : dropTrailingZeros (a :: tl) with
      | nil => exact absurd hT hTne
      | cons t0 ts =>
          have ht0 : t0 = a := by
            rw [hT] at hThead
            simpa using hThead
          rw [List.dropWhile_cons_of_neg (by rw [ht0]; simpa using hc0)]
          have := dropTrailingZeros_length (a :: tl)
          rw [hT] at this
          simp at this ⊢
          omega
    · intro hdot
      have hlastapp : ('0' :: '.' ::
          (List.replicate (x.natAbs - 1) '0' ++ dropTrailingZeros (a :: tl))).getLast? =
          some clast := by
        rw [show ('0' :: '.' ::
            (List.replicate (x.natAbs - 1) '0' ++ dropTrailingZeros (a :: tl))) =
          (['0', '.'] ++ List.replicate (x.natAbs - 1) '0') ++ dropTrailingZeros (a :: tl) from by
            simp]
        rw [List.getLast?_append, hclast]
        rfl
      rw [hlastapp]
      constructor
      · intro hbad
        have : clast = '0' := by simpa using hbad
        exact absurd (this ▸ hclast) (dropTrailingZeros_getLast _)
      · intro hbad
        have hc : clast = '.' := by simpa using hbad
        have hmem3 := hTsub clast (mem_of_getLast? hclast)
        exact (hneD clast hmem3).2 hc
    · simp

theorem sciRender_spec (D : List Char) (x : ℤ) (c0 : Char)
    (hlen : D.length = 10) (hhead : D.head? = some c0) (hc0 : c0 ≠ '0')
    (hmem : ∀ c ∈ D, ∃ d, c = digitChar d) :
    ∃ u v : String, sciRender D x = u ++ "e" ++ v ∧ 'e' ∉ u.toList ∧
      ((u.toList.filter fun c => c.isDigit).dropWhile fun c => c = '0').length ≤ 10 ∧
      trimmedNumeral u.toList ∧ u.toList ≠ [] := by
  have hdig : ∀ c ∈ D, c.isDigit = true := by
    intro c hc
    obtain ⟨d, rfl⟩ := hmem c hc
    exact (digitChar_props d).1
  have hneD : ∀ c ∈ D, c ≠ 'e' ∧ c ≠ '.' := by
    intro c hc
    obtain ⟨d, rfl⟩ := hmem c hc
    exact ⟨(digitChar_props d).2.1, (digitChar_props d).2.2⟩
  cases D with
  | nil => simp at hhead
  | cons a tl =>
  have ha : a = c0 := by simpa using hhead
  subst ha
  have htl9 : tl.length = 9 := by simpa using hlen
  refine ⟨String.mk ((a :: tl).take 1) ++
      (if dropTrailingZeros (a :: tl).tail = [] then ""
       else "." ++ String.mk (dropTrailingZeros (a :: tl).tail)),
    (if x < 0 then "-" else "+") ++ pad2 x.natAbs, ?_, ?_, ?_, ?_, ?_⟩
  · apply String.ext
    rw [sciRender, sciExpStr]
    by_cases hxn : x < 0
    · rw [if_pos hxn, if_pos hxn]
      have he : ("e-" : String).data = ['e', '-'] := by decide
      have he2 : ("e" : String).data = ['e'] := by decide
      have hm : ("-" : String).data = ['-'] := by decide
      simp [String.data_append, he, he2, hm]
    · rw [if_neg hxn, if_neg hxn]
      have he : ("e+" : String).data = ['e', '+'] := by decide
      have he2 : ("e" : String).data = ['e'] := by decide
      have hm : ("+" : String).data = ['+'] := by decide
      simp [String.data_append, he, he2, hm]
  · intro hmem2
    rw [strToList_append, List.mem_append, strToList_mk] at hmem2
    rcases hmem2 with h | h
    · rcases List.mem_cons.mp (List.take_subset _ _ h) with h2 | h2
      · exact (hneD 'e' (by rw [h2]; exact List.mem_cons_self _ _)).1 rfl
      · exact (hneD 'e' (List.mem_cons_of_mem _ h2)).1 rfl
    · by_cases htz : dropTrailingZeros (a :: tl).tail = []
      · rw [if_pos htz] at h
        simp at h
      · rw [if_neg htz] at h
        rw [strToList_append, List.mem_append] at h
        rcases h with h | h
        · simp at h
        · rw [strToList_mk] at h
          have := mem_dropTrailingZeros _ 'e' h
          exact (hneD 'e' (List.mem_of_mem_tail this)).1 rfl
  · by_cases htz : dropTrailingZeros (a :: tl).tail = []
    · rw [if_pos htz]
      have hu : (String.mk ((a :: tl).take 1) ++ "").toList = [a] := by
        rw [strToList_append, strToList_mk]
        simp
      rw [hu]
      rw [List.filter_cons_of_pos (hdig a (List.mem_cons_self _ _)), List.filter_nil,
        List.dropWhile_cons_of_neg (by simpa using hc0)]
      simp
    · rw [if_neg htz]
      have hu : (String.mk ((a :: tl).take 1) ++
          ("." ++ String.mk (dropTrailingZeros (a :: tl).tail))).toList =
          a :: '.' :: dropTrailingZeros (a :: tl).tail := by
        rw [strToList_append, strToList_mk]
        rfl
      rw [hu]
      rw [List.filter_cons_of_pos (hdig a (List.mem_cons_self _ _)),
        List.filter_cons_of_neg (by decide)]
      have hfs : List.filter (fun c => c.isDigit) (dropTrailingZeros (a :: tl).tail) =
          dropTrailingZeros (a :: tl).tail :=
        List.filter_eq_self.mpr fun c hc =>
          hdig c (List.mem_of_mem_tail (mem_dropTrailingZeros _ c hc))
      rw [hfs, List.dropWhile_cons_of_neg (by simpa using hc0)]
      have hlen2 : (dropTrailingZeros (a :: tl).tail).length ≤ 9 := by
        calc (dropTrailingZeros (a :: tl).tail).length ≤ (a :: tl).tail.length :=
              dropTrailingZeros_length _
          _ = 9 := by simp [htl9]
      simp only [List.length_cons]
      omega
  · by_cases htz : dropTrailingZeros (a :: tl).tail = []
    · rw [if_pos htz]
      intro hdot
      have hu : (String.mk ((a :: tl).take 1) ++ "").toList = [a] := by
        rw [strToList_append, strToList_mk]
        simp
      rw [hu] at hdot
      have ha2 : a = '.' := by
        have h2 := List.mem_cons.mp hdot
        exact (by simpa using h2 : '.' = a).symm
      exact absurd ha2 (hneD a (List.mem_cons_self _ _)).2
    · rw [if_neg htz]
      intro _
      obtain ⟨clast, hclast⟩ : ∃ c, (dropTrailingZeros (a :: tl).tail).getLast? = some c :=
        ⟨_, List.getLast?_eq_getLast _ htz⟩
      have hu : (String.mk ((a :: tl).take 1) ++
          ("." ++ String.mk (dropTrailingZeros (a :: tl).tail))).toList =
          a :: '.' :: dropTrailingZeros (a :: tl).tail := by
        rw [strToList_append, strToList_mk]
        rfl
      rw [hu]
      have hlastapp : (a :: '.' :: dropTrailingZeros (a :: tl).tail).getLast? = some clast := by
        rw [show (a :: '.' :: dropTrailingZeros (a :: tl).tail) =
          [a, '.'] ++ dropTrailingZeros (a :: tl).tail from rfl]
        rw [List.getLast?_append, hclast]
        rfl
      rw [hlastapp]
      constructor
      · intro hbad
        have hv : clast = '0' := by simpa using hbad
        exact absurd (hv ▸ hclast) (dropTrailingZeros_getLast _)
      · intro hbad
        have hcdot : clast = '.' := by simpa using hbad
        have hmem3 := List.mem_of_mem_tail (mem_dropTrailingZeros _ clast (mem_of_getLast? hclast))
        exact (hneD clast hmem3).2 hcdot
  · by_cases htz : dropTrailingZeros (a :: tl).tail = []
    · rw [if_pos htz, strToList_append, strToList_mk]
      simp
    · rw [if_neg htz, strToList_append, strToList_mk]
      simp

theorem intStr_chars (n : ℤ) : '.' ∉ (intStr n).toList ∧ 'e' ∉ (intStr n).toList := by
  have hsub : ∀ c ∈ (intStr n).toList, c = '-' ∨ ∃ d, c = digitChar d := by
    intro c hc
    rw [intStr, strToList_append, List.mem_append] at hc
    rcases hc with hc | hc
    · left
      by_cases hn : n < 0
      · rw [if_pos hn] at hc
        have h1 : ("-" : String).toList = ['-'] := by decide
        rw [h1] at hc
        simpa using hc
      · rw [if_neg hn] at hc
        have h1 : ("" : String).toList = [] := by decide
        rw [h1] at hc
        simp at hc
    · rw [natStr] at hc
      by_cases h0 : n.natAbs = 0
      · rw [if_pos h0] at hc
        right
        refine ⟨0, ?_⟩
        have h1 : ("0" : String).toList = ['0'] := by decide
        rw [h1] at hc
        simpa using hc
      · rw [if_neg h0, strToList_mk] at hc
        right
        exact digitChars_image _ c hc
  constructor
  · intro hmem
    rcases hsub _ hmem with h | ⟨d, hd⟩
    · exact absurd h (by decide)
    · exact absurd hd.symm (digitChar_props d).2.2
  · intro hmem
    rcases hsub _ hmem with h | ⟨d, hd⟩
    · exact absurd h (by decide)
    · exact absurd hd.symm (digitChar_props d).2.1

theorem prefixRender_spec (sgn body : String)
    (hs : sgn.toList = [] ∨ sgn.toList = ['-'])
    (hbe : 'e' ∉ body.toList)
    (hbsig : ((body.toList.filter fun c => c.isDigit).dropWhile fun c => c = '0').length ≤ 10)
    (hbtrim : trimmedNumeral body.toList) (hbne : body.toList ≠ []) :
    'e' ∉ (sgn ++ body).toList ∧ sigDigitCount (sgn ++ body) ≤ 10 ∧
    trimmedNumeral (sgn ++ body).toList := by
  obtain ⟨cl, hcl⟩ : ∃ c, body.toList.getLast? = some c := ⟨_, List.getLast?_eq_getLast _ hbne⟩
  have hse : 'e' ∉ sgn.toList := by
    rcases hs with h | h <;> rw [h] <;> decide
  have hsd : '.' ∉ sgn.toList := by
    rcases hs with h | h <;> rw [h] <;> decide
  have hsf : sgn.toList.filter (fun c => c.isDigit) = [] := by
    rcases hs with h | h <;> rw [h] <;> rfl
  refine ⟨?_, ?_, ?_⟩
  · intro hmem
    rw [strToList_append, List.mem_append] at hmem
    rcases hmem with h | h
    · exact hse h
    · exact hbe h
  · rw [sigDigitCount, strToList_append, List.filter_append, hsf, List.nil_append]
    exact hbsig
  · intro hdot
    rw [strToList_append, List.mem_append] at hdot
    have hdotb : '.' ∈ body.toList := by
      rcases hdot with h | h
      · exact absurd h hsd
      · exact h
    obtain ⟨ht0, htd⟩ := hbtrim hdotb
    rw [hcl] at ht0 htd
    have happ : (sgn ++ body).toList.getLast? = some cl := by
      rw [strToList_append, List.getLast?_append, hcl]
      rfl
    rw [happ]
    exact ⟨ht0, htd⟩

/-- C6, counterexample: `0.0000001` is not within `1e-9` of an integer, and
the formatter renders it in scientific notation `"1e-07"`, refuting the
claim's "decimal (never scientific) notation". -/
theorem c6_counterexample :
    format_double (Dbl.finite (1 / 10 ^ 7)) = "1e-07" ∧
    'e' ∈ ("1e-07" : String).toList ∧
    ¬ |(1 : ℚ) / 10 ^ 7 - (stdRound ((1 : ℚ) / 10 ^ 7) : ℚ)| < 1 / 10 ^ 9 :=
  ⟨by decide, by decide, by decide⟩

/-- C6 (amended): values within `1e-9` of an integer render with no decimal
point (and no exponent).  Every other value `q` renders with at most 10
significant digits and trailing fractional zeros trimmed, but in the
notation C++ default formatting picks from the decimal exponent of `q`
(`g10exp0`/`g10exp`, bracketed below): fixed-point when
`-4 ≤ g10exp |q| < 10`, scientific (an `'e'` and an exponent suffix)
otherwise. -/
theorem c6_format_amended (q : ℚ) :
    (|q - (stdRound q : ℚ)| < 1 / 10 ^ 9 →
        '.' ∉ (format_double (Dbl.finite q)).toList ∧
        'e' ∉ (format_double (Dbl.finite q)).toList) ∧
    (¬ |q - (stdRound q : ℚ)| < 1 / 10 ^ 9 →
        ((10 : ℚ) ^ g10exp0 |q| ≤ |q| ∧ |q| < 10 ^ (g10exp0 |q| + 1)) ∧
        ((-4 ≤ g10exp |q| ∧ g10exp |q| < 10) →
            'e' ∉ (format_double (Dbl.finite q)).toList ∧
            sigDigitCount (format_double (Dbl.finite q)) ≤ 10 ∧
            trimmedNumeral (format_double (Dbl.finite q)).toList) ∧
        (¬ (-4 ≤ g10exp |q| ∧ g10exp |q| < 10) →
            ∃ u v : String, format_double (Dbl.finite q) = u ++ "e" ++ v ∧
              'e' ∉ u.toList ∧ sigDigitCount u ≤ 10 ∧ trimmedNumeral u.toList)) := by
  constructor
  · intro h
    simp only [format_double]
    rw [if_pos h]
    by_cases hz : stdRound q = 0 ∧ q < 0
    · rw [if_pos hz]
      exact ⟨by decide, by decide⟩
    · rw [if_neg hz]
      exact intStr_chars (stdRound q)
  · intro hcond
    have hq0 : q ≠ 0 := by
      intro h
      subst h
      exact hcond (by decide)
    have habs : 0 < |q| := abs_pos.mpr hq0
    obtain ⟨hbr1, hbr2⟩ := g10exp0_bracket |q| habs
    have hm := g10mant_bounds |q| habs
    have h0le : (0 : ℤ) ≤ g10mant |q| := le_trans (by norm_num) hm.1
    have htn : ((g10mant |q|).toNat : ℤ) = g10mant |q| := Int.toNat_of_nonneg h0le
    have hM9 : 10 ^ 9 ≤ (g10mant |q|).toNat := by
      have h1 := hm.1
      rw [← htn] at h1
      exact_mod_cast h1
    have hM10 : (g10mant |q|).toNat < 10 ^ 10 := by
      have h1 := hm.2
      rw [← htn] at h1
      exact_mod_cast h1
    have hMne : (g10mant |q|).toNat ≠ 0 := by
      intro h0
      rw [h0] at hM9
      norm_num at hM9
    have hDlen := digitChars_length _ hM9 hM10
    obtain ⟨c0, hhead, hc0, hc0d⟩ := digitChars_head _ hMne
    have hmemD := digitChars_image ((g10mant |q|).toNat)
    have hfd : format_double (Dbl.finite q) = defaultfloat10 q := by
      simp only [format_double]
      rw [if_neg hcond]
    have hsgn : defaultfloat10 q = (if q < 0 then "-" else "") ++
        (if -4 ≤ g10exp |q| ∧ g10exp |q| < 10 then
          fixedRender (digitChars (g10mant |q|).toNat) (g10exp |q|)
         else sciRender (digitChars (g10mant |q|).toNat) (g10exp |q|)) := by
      rw [defaultfloat10, if_neg hq0]
    have hs : ((if q < 0 then "-" else "") : String).toList = [] ∨
        ((if q < 0 then "-" else "") : String).toList = ['-'] := by
      by_cases hqn : q < 0
      · right
        rw [if_pos hqn]
        rfl
      · left
        rw [if_neg hqn]
        rfl
    refine ⟨⟨hbr1, hbr2⟩, ?_, ?_⟩
    · intro hx
      rw [hfd, hsgn, if_pos hx]
      obtain ⟨hfe, hfsig, hftrim, hfne⟩ :=
        fixedRender_spec (digitChars (g10mant |q|).toNat) (g10exp |q|) c0 hDlen hhead hc0 hmemD
      exact prefixRender_spec _ _ hs hfe hfsig hftrim hfne
    · intro hx
      rw [hfd, hsgn, if_neg hx]
      obtain ⟨u, v, hEq, hue, husig, hutrim, hune⟩ :=
        sciRender_spec (digitChars (g10mant |q|).toNat) (g10exp |q|) c0 hDlen hhead hc0 hmemD
      obtain ⟨hpe, hpsig, hptrim⟩ := prefixRender_spec (if q < 0 then "-" else "") u hs hue husig hutrim hune
      refine ⟨(if q < 0 then "-" else "") ++ u, v, ?_, hpe, hpsig, hptrim⟩
      rw [hEq]
      simp [String.append_assoc]

/-- C6, witness: the amended theorem at `q = 1/4`, which renders in fixed
notation as `"0.25"`. -/
theorem c6_witness :
    (¬ |(1 : ℚ) / 4 - (stdRound ((1 : ℚ) / 4) : ℚ)| < 1 / 10 ^ 9 ∧
      (-4 ≤ g10exp |(1 : ℚ) / 4| ∧ g10exp |(1 : ℚ) / 4| < 10)) ∧
    ('e' ∉ (format_double (Dbl.finite (1 / 4))).toList ∧
      sigDigitCount (format_double (Dbl.finite (1 / 4))) ≤ 10 ∧
      trimmedNumeral (format_double (Dbl.finite (1 / 4))).toList) :=
  ⟨⟨by decide, by decide⟩, ((c6_format_amended (1 / 4)).2 (by decide)).2.1 (by decide)⟩
